import Mathlib

/-!
Verification of the `interval_map` data structure from
`src/ThinkCell-project/main.cpp`.

The C++ class `interval_map<K, V>` stores a base value `m_valBegin : V` and a
`std::map<K, V>` of breakpoints `m_map`, sorted strictly by key.  We embed the
`std::map` as a key-sorted association list `List (K × V)` and translate the
member functions `assign` and `operator[]` (here `lookup`) statement by
statement.  The key type only supplies `<` (we use a `LinearOrder`), the value
type only supplies `==` (we use `DecidableEq`).
-/

/-- The C++ class `interval_map<K, V>`: `m_valBegin` is the value of every key
below the first breakpoint, `m_map` is the breakpoint map of the `std::map`,
embedded as its key-sorted list of entries. -/
structure interval_map (K V : Type) where
  m_valBegin : V
  m_map : List (K × V)
deriving DecidableEq

/-- The local lambda `eq` in `assign`: key equality expressed through
`operator<` alone, `!(v1 < v2) && !(v2 < v1)`. -/
def keyEq {K : Type} [LinearOrder K] (v1 v2 : K) : Bool :=
  !(decide (v1 < v2)) && !(decide (v2 < v1))

/-- Result of the erase-while loop of `assign`: the part of the map from the
iterator position onward when the loop stops (`after`), the running
`lastValue`, and the `isShouldFulfill` flag. -/
structure EraseResult (K V : Type) where
  after : List (K × V)
  lastValue : V
  isShouldFulfill : Bool

/-- The while loop of `assign`, run on the part of `m_map` from
`lower_bound(keyBegin)` onward: erase entries with key `< keyEnd`, recording
each erased value in `lastValue`; on reaching an entry with key `>= keyEnd`,
clear `isShouldFulfill` when that key equals `keyEnd`, and stop.  Running off
the end leaves `isShouldFulfill` set. -/
def eraseLoop {K V : Type} [LinearOrder K] (keyEnd : K) (lastValue : V) :
    List (K × V) → EraseResult K V
  | [] => ⟨[], lastValue, true⟩
  | (k, v) :: rest =>
    if k < keyEnd then eraseLoop keyEnd v rest
    else ⟨(k, v) :: rest, lastValue, !(keyEq k keyEnd)⟩

/-- `std::map::insert` (the hinted overload used by `assign`): insert the pair
at its sorted position, doing nothing when the key is already present.  The
hint argument of the C++ call only affects running time, not the result. -/
def mapInsert {K V : Type} [LinearOrder K] (key : K) (val : V) :
    List (K × V) → List (K × V)
  | [] => [(key, val)]
  | (k, v) :: rest =>
    if key < k then (key, val) :: (k, v) :: rest
    else if k < key then (k, v) :: mapInsert key val rest
    else (k, v) :: rest

/-- The final for loop of `assign` ("wipe out all duplicates"): walk the whole
map with a running `prevValue` initialized to `m_valBegin`, erasing every entry
whose value equals the running value and otherwise updating it. -/
def wipeDuplicates {K V : Type} [DecidableEq V] (prevValue : V) :
    List (K × V) → List (K × V)
  | [] => []
  | (k, v) :: rest =>
    if v = prevValue then wipeDuplicates prevValue rest
    else (k, v) :: wipeDuplicates v rest

/-- The state of `m_map` inside `assign` just before the duplicate-wipe pass:
`lower_bound(keyBegin)` splits `m_map`, the erase loop runs on the upper part,
then `(keyBegin, val)` and, when `isShouldFulfill` holds, `(keyEnd, lastValue)`
are inserted. -/
def assignMid {K V : Type} [LinearOrder K] (m : interval_map K V)
    (keyBegin keyEnd : K) (val : V) : List (K × V) :=
  let pre := m.m_map.takeWhile fun p => decide (p.1 < keyBegin)
  let r := eraseLoop keyEnd m.m_valBegin
    (m.m_map.dropWhile fun p => decide (p.1 < keyBegin))
  let map2 := mapInsert keyBegin val (pre ++ r.after)
  if r.isShouldFulfill then mapInsert keyEnd r.lastValue map2 else map2

/-- `interval_map::assign`: return unchanged unless `keyBegin < keyEnd`;
otherwise erase the breakpoints of `[keyBegin, keyEnd)`, insert the opening
and (conditionally) closing breakpoints, and run the duplicate-wipe pass. -/
def assign {K V : Type} [LinearOrder K] [DecidableEq V]
    (m : interval_map K V) (keyBegin keyEnd : K) (val : V) : interval_map K V :=
  if keyBegin < keyEnd then
    { m_valBegin := m.m_valBegin
      m_map := wipeDuplicates m.m_valBegin (assignMid m keyBegin keyEnd val) }
  else m

/-- `interval_map::operator[]`: `upper_bound(key)` is the first entry with
`key < entry key`; when it is `begin()` return `m_valBegin`, otherwise step
back one entry and return its value.  On the sorted list the entries before
`upper_bound(key)` are exactly the initial run with keys `<= key`. -/
def lookup {K V : Type} [LinearOrder K] (m : interval_map K V) (key : K) : V :=
  match (m.m_map.takeWhile fun p => !(decide (key < p.1))).getLast? with
  | none => m.m_valBegin
  | some p => p.2

/-- Total embedding of `operator[]` with an explicit error branch: the
step-back `(--it)->second` is an invalid access (`none`) exactly when
`upper_bound(key)` is `begin()`, which the guard excludes. -/
def lookupChecked {K V : Type} [LinearOrder K] (m : interval_map K V)
    (key : K) : Option V :=
  let pre := m.m_map.takeWhile fun p => !(decide (key < p.1))
  if pre.isEmpty then some m.m_valBegin
  else (pre.getLast?).map Prod.snd

/-- Modelled from the spec's words (I4 in the spec, for the refinement claim
about `lookup`): `f(key) = base` if `key` is below every breakpoint key (or
there are none), else the value of the greatest breakpoint key `<= key`; on the
increasing-key list that greatest entry is the last one with key `<= key`. -/
def lookupSpec {K V : Type} [LinearOrder K] (m : interval_map K V)
    (key : K) : V :=
  match (m.m_map.filter fun p => decide (p.1 ≤ key)).getLast? with
  | none => m.m_valBegin
  | some p => p.2

/-- The diagnostic dump `getMapSnippet`, modelled as the ordered breakpoint
list itself (the C++ renders exactly these pairs in order). -/
def getMapSnippet {K V : Type} (m : interval_map K V) : List (K × V) :=
  m.m_map

/-- Canonicity check relative to a running previous value: every entry's value
differs from the value now holding to its left.  `canonicalFrom m_valBegin`
states invariants I2 (first value differs from the base value) and I3 (no two
consecutive equal values) together. -/
def canonicalFrom {K V : Type} [DecidableEq V] (prev : V) :
    List (K × V) → Bool
  | [] => true
  | (_, v) :: rest =>
    if v = prev then false else canonicalFrom v rest

/-- Map states reachable from the constructor by `assign` calls. -/
inductive Reachable {K V : Type} [LinearOrder K] [DecidableEq V] :
    interval_map K V → Prop
  | init (v : V) : Reachable ⟨v, []⟩
  | step {m : interval_map K V} (b e : K) (v : V) :
      Reachable m → Reachable (assign m b e v)

/-- Number of `V == V` comparisons performed by the duplicate-wipe pass of
`assign` on a given list: the loop compares `it->second == prevValue` once per
visited entry. -/
def wipeComparisons {K V : Type} [DecidableEq V] (prevValue : V) :
    List (K × V) → Nat
  | [] => 0
  | (_, v) :: rest =>
    1 + (if v = prevValue then wipeComparisons prevValue rest
         else wipeComparisons v rest)

/-- Number of entries erased by the duplicate-wipe pass of `assign`. -/
def wipeErased {K V : Type} [DecidableEq V] (prevValue : V) :
    List (K × V) → Nat
  | [] => 0
  | (_, v) :: rest =>
    if v = prevValue then 1 + wipeErased prevValue rest else wipeErased v rest

/-- Number of entries erased by the erase-while loop of `assign`, run from
`lower_bound(keyBegin)`: one per entry with key `< keyEnd` before the loop
stops. -/
def rangeErased {K V : Type} [LinearOrder K] (keyEnd : K) :
    List (K × V) → Nat
  | [] => 0
  | (k, _) :: rest => if k < keyEnd then 1 + rangeErased keyEnd rest else 0

/-- Whether a `mapInsert` call actually inserts (1) or finds the key already
present (0). -/
def insertCount {K V : Type} [LinearOrder K] (key : K) :
    List (K × V) → Nat
  | [] => 1
  | (k, _) :: rest =>
    if key < k then 1 else if k < key then insertCount key rest else 0

/-- Total `V == V` comparisons performed by the duplicate-wipe pass during one
`assign` call (0 for an empty range, which returns before the pass). -/
def assignVComparisons {K V : Type} [LinearOrder K] [DecidableEq V]
    (m : interval_map K V) (keyBegin keyEnd : K) (val : V) : Nat :=
  if keyBegin < keyEnd then
    wipeComparisons m.m_valBegin (assignMid m keyBegin keyEnd val)
  else 0

/-- Total breakpoints removed during one `assign` call: erase-loop removals
plus duplicate-wipe removals. -/
def assignRemoved {K V : Type} [LinearOrder K] [DecidableEq V]
    (m : interval_map K V) (keyBegin keyEnd : K) (val : V) : Nat :=
  if keyBegin < keyEnd then
    rangeErased keyEnd (m.m_map.dropWhile fun p => decide (p.1 < keyBegin))
      + wipeErased m.m_valBegin (assignMid m keyBegin keyEnd val)
  else 0

/-- Total breakpoints inserted during one `assign` call: the opening
breakpoint plus, when `isShouldFulfill` holds, the closing breakpoint. -/
def assignInserted {K V : Type} [LinearOrder K] [DecidableEq V]
    (m : interval_map K V) (keyBegin keyEnd : K) (val : V) : Nat :=
  if keyBegin < keyEnd then
    let pre := m.m_map.takeWhile fun p => decide (p.1 < keyBegin)
    let r := eraseLoop keyEnd m.m_valBegin
      (m.m_map.dropWhile fun p => decide (p.1 < keyBegin))
    let map1 := pre ++ r.after
    insertCount keyBegin map1
      + (if r.isShouldFulfill then
          insertCount keyEnd (mapInsert keyBegin val map1) else 0)
  else 0

/-! ## Helper lemmas -/

/-- The duplicate-wipe pass produces a list in canonical form relative to its
initial running value. -/
theorem wipeDuplicates_canonical {K V : Type} [DecidableEq V]
    (l : List (K × V)) : ∀ prev : V,
    canonicalFrom prev (wipeDuplicates prev l) = true := by
  induction l with
  | nil => intro prev; rfl
  | cons p rest ih =>
      intro prev
      by_cases h : p.2 = prev
      · simp [wipeDuplicates, h, ih prev]
      · simp [wipeDuplicates, h, canonicalFrom, ih p.2]

/-- `assign` with an empty or inverted range returns the map unchanged. -/
theorem assign_of_not_lt {K V : Type} [LinearOrder K] [DecidableEq V]
    (m : interval_map K V) (b e : K) (v : V) (h : ¬ b < e) :
    assign m b e v = m := by
  simp [assign, h]

/-! ## Claim theorems -/

/-- Claim C5: if `!(keyBegin < keyEnd)`, the call `assign(keyBegin, keyEnd, v)`
is a no-op: the state (hence the breakpoint dump) is unchanged and every
`lookup` result is the same as before the call. -/
theorem assign_empty_range_noop {K V : Type} [LinearOrder K] [DecidableEq V]
    (m : interval_map K V) (b e : K) (v : V) (h : ¬ b < e) :
    assign m b e v = m ∧
      getMapSnippet (assign m b e v) = getMapSnippet m ∧
      ∀ k : K, lookup (assign m b e v) k = lookup m k := by
  have h1 : assign m b e v = m := assign_of_not_lt m b e v h
  exact ⟨h1, by rw [h1], fun k => by rw [h1]⟩

/-- Witness for C5 at a concrete input: the inverted range `[8, 5)` from the
test `testInsertAbortedForIncorrectIndexesBeginIsBiggerThanEnd`. -/
theorem assign_empty_range_noop_witness :
    ¬ ((8 : Int) < 5) ∧
      (assign (interval_map.mk 'A' [((2 : Int), 'B'), (5, 'A')]) 8 5 'C'
          = interval_map.mk 'A' [((2 : Int), 'B'), (5, 'A')] ∧
        getMapSnippet
            (assign (interval_map.mk 'A' [((2 : Int), 'B'), (5, 'A')]) 8 5 'C')
          = getMapSnippet (interval_map.mk 'A' [((2 : Int), 'B'), (5, 'A')]) ∧
        ∀ k : Int,
          lookup (assign (interval_map.mk 'A' [((2 : Int), 'B'), (5, 'A')]) 8 5 'C') k
            = lookup (interval_map.mk 'A' [((2 : Int), 'B'), (5, 'A')]) k) :=
  ⟨by decide,
   assign_empty_range_noop (interval_map.mk 'A' [((2 : Int), 'B'), (5, 'A')])
     8 5 'C' (by decide)⟩

/-- Claim C2: every state reachable from the constructor by `assign` calls is
canonical: no two consecutive breakpoints hold equal values, and the first
breakpoint's value (if any) differs from `m_valBegin`. -/
theorem reachable_canonical {K V : Type} [LinearOrder K] [DecidableEq V]
    (m : interval_map K V) (h : Reachable m) :
    canonicalFrom m.m_valBegin m.m_map = true := by
  induction h with
  | init v => rfl
  | step b e v hm ih =>
      by_cases hbe : b < e
      · simp only [assign, if_pos hbe]
        exact wipeDuplicates_canonical _ _
      · simpa [assign, hbe] using ih

/-- Witness for C2 at a concrete reachable state: two overlapping `assign`
calls from a fresh map with base `'A'`. -/
theorem reachable_canonical_witness :
    canonicalFrom
        (assign (assign (interval_map.mk 'A' ([] : List (Int × Char))) 2 5 'B')
            4 6 'C').m_valBegin
        (assign (assign (interval_map.mk 'A' ([] : List (Int × Char))) 2 5 'B')
            4 6 'C').m_map = true :=
  reachable_canonical _
    (Reachable.step 4 6 'C' (Reachable.step 2 5 'B' (Reachable.init 'A')))

/-- Claim C6: from base `'A'`, the calls `assign(2,4,'B')`, `assign(4,6,'C')`,
`assign(6,8,'D')`, `assign(2,8,'A')` leave the breakpoint dump empty, and
`lookup` returns `'A'` for every key (in particular on `[0,10)`). -/
theorem assign_collapse_to_empty :
    getMapSnippet
        (assign (assign (assign (assign
          (interval_map.mk 'A' ([] : List (Int × Char))) 2 4 'B')
            4 6 'C') 6 8 'D') 2 8 'A') = [] ∧
      ∀ k : Int,
        lookup (assign (assign (assign (assign
          (interval_map.mk 'A' ([] : List (Int × Char))) 2 4 'B')
            4 6 'C') 6 8 'D') 2 8 'A') k = 'A' := by
  have h : assign (assign (assign (assign
      (interval_map.mk 'A' ([] : List (Int × Char))) 2 4 'B')
        4 6 'C') 6 8 'D') 2 8 'A' = interval_map.mk 'A' [] := by decide
  refine ⟨by rw [getMapSnippet, h], fun k => by rw [h]; rfl⟩

/-- Claim C8: from base `'A'`, the calls `assign(2,5,'B')`, `assign(5,8,'C')`,
`assign(4,6,'D')` yield exactly the dump
`[(2,'B'),(4,'D'),(6,'C'),(8,'A')]` in increasing key order. -/
theorem assign_boundary_merge :
    getMapSnippet
        (assign (assign (assign
          (interval_map.mk 'A' ([] : List (Int × Char))) 2 5 'B')
            5 8 'C') 4 6 'D')
      = [((2 : Int), 'B'), (4, 'D'), (6, 'C'), (8, 'A')] := by
  decide

/-- Claim C1 fails on the code: with base `'A'`, after `assign(0,10,'B')` the
key `6` maps to `'B'`; the call `assign(3,5,'C')` must leave keys outside
`[3,5)` unchanged, yet afterwards `lookup(6)` returns `'A'`.  The erase loop
never sees a breakpoint (the only candidates have keys `0 < 3` and `10 ≥ 5`),
so `lastValue` keeps its initialization `m_valBegin = 'A'` instead of the value
`'B'` that actually precedes `keyEnd`, and the closing breakpoint `(5,'A')` is
wrong. -/
theorem assign_changes_outside_range :
    lookup (assign (interval_map.mk 'A' ([] : List (Int × Char))) 0 10 'B') 6
        = 'B' ∧
      ¬ ((3 : Int) ≤ 6 ∧ (6 : Int) < 5) ∧
      lookup (assign (assign (interval_map.mk 'A' ([] : List (Int × Char)))
          0 10 'B') 3 5 'C') 6 = 'A' ∧
      ('A' : Char) ≠ 'B' := by
  decide

/-- Claim C7 fails on the code: at the reachable state with breakpoints
`[(1,'B'),(2,'C'),(3,'B'),(10,'A')]` and base `'A'`, one call of
`assign(2,5,'B')` yields dump `[(1,'B'),(10,'A')]`, but a second identical
call yields `[(1,'B'),(5,'A')]` — the second call finds nothing to erase, so
its `lastValue` wrongly stays at the base `'A'` and a spurious closing
breakpoint `(5,'A')` survives the duplicate wipe. -/
theorem assign_not_idempotent :
    getMapSnippet
        (assign (assign (assign (assign
          (interval_map.mk 'A' ([] : List (Int × Char))) 1 2 'B')
            2 3 'C') 3 10 'B') 2 5 'B')
      = [((1 : Int), 'B'), (10, 'A')] ∧
      getMapSnippet
        (assign (assign (assign (assign (assign
          (interval_map.mk 'A' ([] : List (Int × Char))) 1 2 'B')
            2 3 'C') 3 10 'B') 2 5 'B') 2 5 'B')
      = [((1 : Int), 'B'), (5, 'A')] ∧
      getMapSnippet
        (assign (assign (assign (assign (assign
          (interval_map.mk 'A' ([] : List (Int × Char))) 1 2 'B')
            2 3 'C') 3 10 'B') 2 5 'B') 2 5 'B')
      ≠ getMapSnippet
        (assign (assign (assign (assign
          (interval_map.mk 'A' ([] : List (Int × Char))) 1 2 'B')
            2 3 'C') 3 10 'B') 2 5 'B') := by
  decide

/-- Claim C3 fails on the code, concretely: the reachable state below has 10
breakpoints; the call `assign(20,21,'B')` touches none of them (it removes 0
breakpoints and inserts 2), yet its duplicate-wipe pass performs 12 value
comparisons — one per breakpoint of the whole map — exceeding any bound in
the number of breakpoints removed or inserted. -/
theorem assign_full_scan_counterexample :
    (assign (assign (assign (assign (assign
        (interval_map.mk 'A' ([] : List (Int × Char))) 2 3 'B')
          4 5 'B') 6 7 'B') 8 9 'B') 10 11 'B').m_map.length = 10 ∧
      assignVComparisons
        (assign (assign (assign (assign (assign
          (interval_map.mk 'A' ([] : List (Int × Char))) 2 3 'B')
            4 5 'B') 6 7 'B') 8 9 'B') 10 11 'B') 20 21 'B' = 12 ∧
      assignRemoved
        (assign (assign (assign (assign (assign
          (interval_map.mk 'A' ([] : List (Int × Char))) 2 3 'B')
            4 5 'B') 6 7 'B') 8 9 'B') 10 11 'B') 20 21 'B' = 0 ∧
      assignInserted
        (assign (assign (assign (assign (assign
          (interval_map.mk 'A' ([] : List (Int × Char))) 2 3 'B')
            4 5 'B') 6 7 'B') 8 9 'B') 10 11 'B') 20 21 'B' = 2 ∧
      assignRemoved
          (assign (assign (assign (assign (assign
            (interval_map.mk 'A' ([] : List (Int × Char))) 2 3 'B')
              4 5 'B') 6 7 'B') 8 9 'B') 10 11 'B') 20 21 'B'
        + assignInserted
          (assign (assign (assign (assign (assign
            (interval_map.mk 'A' ([] : List (Int × Char))) 2 3 'B')
              4 5 'B') 6 7 'B') 8 9 'B') 10 11 'B') 20 21 'B'
        < assignVComparisons
          (assign (assign (assign (assign (assign
            (interval_map.mk 'A' ([] : List (Int × Char))) 2 3 'B')
              4 5 'B') 6 7 'B') 8 9 'B') 10 11 'B') 20 21 'B' := by
  decide

/-- Claim C9: `lookup` is total.  In the checked embedding of `operator[]`,
the step-back branch is taken only when `upper_bound` is not `begin`, so the
invalid-access branch (`none`) is unreachable and the result is always the
defined value computed by `lookup`. -/
theorem lookupChecked_total {K V : Type} [LinearOrder K]
    (m : interval_map K V) (key : K) :
    lookupChecked m key = some (lookup m key) := by
  unfold lookupChecked lookup
  cases h : m.m_map.takeWhile fun p => !(decide (key < p.1)) with
  | nil => simp [h]
  | cons a l =>
      cases hg : (a :: l).getLast? with
      | none =>
          have := List.getLast?_isSome (l := a :: l)
          rw [hg] at this
          simp at this
      | some p => simp [h, hg]

/-- On a list with strictly increasing keys, the entries strictly before
`upper_bound key` (the `takeWhile` run of keys `<= key`) are exactly all the
entries with key `<= key`. -/
theorem takeWhile_le_eq_filter_le {K V : Type} [LinearOrder K] (key : K) :
    ∀ l : List (K × V), l.Pairwise (fun p q => p.1 < q.1) →
      (l.takeWhile fun p => !(decide (key < p.1)))
        = l.filter fun p => decide (p.1 ≤ key) := by
  intro l
  induction l with
  | nil => intro _; rfl
  | cons p rest ih =>
      intro h
      rw [List.pairwise_cons] at h
      obtain ⟨hhead, htail⟩ := h
      by_cases hk : key < p.1
      · have hrest : (rest.filter fun q => decide (q.1 ≤ key)) = [] :=
          List.filter_eq_nil_iff.mpr fun q hq => by
            simp [not_le.mpr (lt_trans hk (hhead q hq))]
        simp [List.takeWhile_cons, List.filter_cons, hk, not_le.mpr hk, hrest]
      · simp [List.takeWhile_cons, List.filter_cons, hk, not_lt.mp hk, ih htail]

/-- Claim C4: on every map state with strictly increasing breakpoint keys,
`lookup key` returns `m_valBegin` when `key` is below every breakpoint (or
there are none), and otherwise the value of the breakpoint with the greatest
key `<= key` — i.e. `lookup` agrees with the function induced by invariant I4
of the spec. -/
theorem lookup_eq_lookupSpec {K V : Type} [LinearOrder K]
    (m : interval_map K V)
    (h : m.m_map.Pairwise fun p q => p.1 < q.1) (key : K) :
    lookup m key = lookupSpec m key := by
  unfold lookup lookupSpec
  rw [takeWhile_le_eq_filter_le key m.m_map h]

/-- Witness for C4 at the doc-comment example `m_valBegin = 'A'`,
`m_map = [(1,'B'),(3,'A')]`, queried at key `2`. -/
theorem lookup_eq_lookupSpec_witness :
    List.Pairwise (fun p q => p.1 < q.1) [((1 : Int), 'B'), (3, 'A')] ∧
      lookup (interval_map.mk 'A' [((1 : Int), 'B'), (3, 'A')]) 2
        = lookupSpec (interval_map.mk 'A' [((1 : Int), 'B'), (3, 'A')]) 2 :=
  ⟨by decide,
   lookup_eq_lookupSpec (interval_map.mk 'A' [((1 : Int), 'B'), (3, 'A')])
     (by decide) 2⟩

/-- The duplicate-wipe pass compares every entry of its input once: its
`V == V` comparison count is the length of the list it scans. -/
theorem wipeComparisons_eq_length {K V : Type} [DecidableEq V] :
    ∀ (l : List (K × V)) (prev : V), wipeComparisons prev l = l.length := by
  intro l
  induction l with
  | nil => intro prev; rfl
  | cons p rest ih =>
      intro prev
      obtain ⟨k, v⟩ := p
      by_cases h : v = prev <;> simp [wipeComparisons, h, ih] <;> omega

/-- The erase loop splits its input: entries kept in `after` plus entries
erased account for the whole list. -/
theorem eraseLoop_after_length {K V : Type} [LinearOrder K] (e : K) :
    ∀ (l : List (K × V)) (lv : V),
      (eraseLoop e lv l).after.length + rangeErased e l = l.length := by
  intro l
  induction l with
  | nil => intro lv; rfl
  | cons p rest ih =>
      intro lv
      obtain ⟨k, v⟩ := p
      by_cases h : k < e
      · have := ih v
        simp [eraseLoop, rangeErased, h] at this ⊢
        omega
      · simp [eraseLoop, rangeErased, h]

/-- `mapInsert` grows the list by one exactly when it inserts. -/
theorem mapInsert_length {K V : Type} [LinearOrder K] (key : K) (val : V) :
    ∀ l : List (K × V),
      (mapInsert key val l).length = l.length + insertCount key l := by
  intro l
  induction l with
  | nil => rfl
  | cons p rest ih =>
      obtain ⟨k, v⟩ := p
      by_cases h1 : key < k
      · simp [mapInsert, insertCount, h1]
      · by_cases h2 : k < key
        · simp only [mapInsert, insertCount, if_neg h1, if_pos h2,
            List.length_cons, ih]
          omega
        · simp [mapInsert, insertCount, h1, h2]

/-- The entry at which the erase loop stops (if any) has key `>= keyEnd`, and
strictly greater when `isShouldFulfill` survives. -/
theorem eraseLoop_after_head {K V : Type} [LinearOrder K] (e : K) :
    ∀ (l : List (K × V)) (lv : V),
      ∀ q ∈ (eraseLoop e lv l).after.head?,
        e ≤ q.1 ∧ ((eraseLoop e lv l).isShouldFulfill = true → e < q.1) := by
  intro l
  induction l with
  | nil => intro lv q hq; simp [eraseLoop] at hq
  | cons p rest ih =>
      intro lv q hq
      obtain ⟨k, v⟩ := p
      by_cases h : k < e
      · rw [show eraseLoop e lv ((k, v) :: rest) = eraseLoop e v rest by
          simp [eraseLoop, h]] at hq ⊢
        exact ih v q hq
      · rw [show eraseLoop e lv ((k, v) :: rest)
            = ⟨(k, v) :: rest, lv, !(keyEq k e)⟩ by simp [eraseLoop, h]] at hq ⊢
        simp at hq
        subst hq
        refine ⟨le_of_not_lt h, fun hful => ?_⟩
        simp [keyEq] at hful
        exact lt_of_le_of_ne (le_of_not_lt h) fun he => hful he.symm

/-- Inserting a key greater than every key of `l₁` and smaller than the head
key of `l₂` lands exactly between them. -/
theorem mapInsert_middle {K V : Type} [LinearOrder K] (key : K) (val : V) :
    ∀ l₁ l₂ : List (K × V), (∀ p ∈ l₁, p.1 < key) →
      (∀ q ∈ l₂.head?, key < q.1) →
      mapInsert key val (l₁ ++ l₂) = l₁ ++ (key, val) :: l₂ := by
  intro l₁
  induction l₁ with
  | nil =>
      intro l₂ _ h2
      cases l₂ with
      | nil => rfl
      | cons q t =>
          have hq : key < q.1 := h2 q (by simp)
          obtain ⟨k, v⟩ := q
          simp [mapInsert, hq]
  | cons p t ih =>
      intro l₂ h1 h2
      have hp : p.1 < key := h1 p (by simp)
      obtain ⟨k, v⟩ := p
      have hstep : mapInsert key val ((k, v) :: (t ++ l₂))
          = (k, v) :: mapInsert key val (t ++ l₂) := by
        simp [mapInsert, not_lt_of_gt hp, hp]
      rw [List.cons_append, hstep,
        ih l₂ (fun q hq => h1 q (by simp [hq])) h2, List.cons_append]

/-- Under the hypotheses of `mapInsert_middle` the insertion really happens. -/
theorem insertCount_middle {K V : Type} [LinearOrder K] (key : K) :
    ∀ l₁ l₂ : List (K × V), (∀ p ∈ l₁, p.1 < key) →
      (∀ q ∈ l₂.head?, key < q.1) →
      insertCount key (l₁ ++ l₂) = 1 := by
  intro l₁
  induction l₁ with
  | nil =>
      intro l₂ _ h2
      cases l₂ with
      | nil => rfl
      | cons q t =>
          have hq : key < q.1 := h2 q (by simp)
          obtain ⟨k, v⟩ := q
          simp [insertCount, hq]
  | cons p t ih =>
      intro l₂ h1 h2
      have hp : p.1 < key := h1 p (by simp)
      obtain ⟨k, v⟩ := p
      have hstep : insertCount key ((k, v) :: (t ++ l₂))
          = insertCount key (t ++ l₂) := by
        simp [insertCount, not_lt_of_gt hp, hp]
      rw [List.cons_append, hstep, ih l₂ (fun q hq => h1 q (by simp [hq])) h2]

/-- Claim C3 amended: each `assign(b, e, v)` with `b < e` still performs only
the one `lower_bound` positioning search, the erase loop touches only the
breakpoints it removes, and it inserts one or two breakpoints — but the final
duplicate-wipe pass compares one value per breakpoint of the whole resulting
map: its comparison count obeys
`comparisons + (range-loop removals) = (total breakpoints before) + (insertions)`,
so the per-call work grows with the total breakpoint count rather than being
bounded by the number of breakpoints removed or inserted. -/
theorem assign_wipe_scan_cost {K V : Type} [LinearOrder K] [DecidableEq V]
    (m : interval_map K V) (b e : K) (v : V) (h : b < e) :
    (assignVComparisons m b e v
        + rangeErased e (m.m_map.dropWhile fun p => decide (p.1 < b))
      = m.m_map.length + assignInserted m b e v) ∧
      1 ≤ assignInserted m b e v ∧ assignInserted m b e v ≤ 2 := by
  have hpreb : ∀ p ∈ m.m_map.takeWhile fun p => decide (p.1 < b), p.1 < b :=
    fun p hp => by simpa using List.mem_takeWhile_imp hp
  have hhead := eraseLoop_after_head e
    (m.m_map.dropWhile fun p => decide (p.1 < b)) m.m_valBegin
  have hsplit : (m.m_map.takeWhile fun p => decide (p.1 < b)).length
      + (m.m_map.dropWhile fun p => decide (p.1 < b)).length
      = m.m_map.length := by
    rw [← List.length_append, List.takeWhile_append_dropWhile]
  have hloop := eraseLoop_after_length e
    (m.m_map.dropWhile fun p => decide (p.1 < b)) m.m_valBegin
  have hins1 : insertCount b
      ((m.m_map.takeWhile fun p => decide (p.1 < b))
        ++ (eraseLoop e m.m_valBegin
            (m.m_map.dropWhile fun p => decide (p.1 < b))).after) = 1 :=
    insertCount_middle b _ _ hpreb
      fun q hq => lt_of_lt_of_le h (hhead q hq).1
  have hmid : mapInsert b v
      ((m.m_map.takeWhile fun p => decide (p.1 < b))
        ++ (eraseLoop e m.m_valBegin
            (m.m_map.dropWhile fun p => decide (p.1 < b))).after)
      = (m.m_map.takeWhile fun p => decide (p.1 < b))
        ++ (b, v) :: (eraseLoop e m.m_valBegin
            (m.m_map.dropWhile fun p => decide (p.1 < b))).after :=
    mapInsert_middle b v _ _ hpreb
      fun q hq => lt_of_lt_of_le h (hhead q hq).1
  simp only [assignVComparisons, assignInserted, assignMid, if_pos h]
  rw [wipeComparisons_eq_length]
  by_cases hf : (eraseLoop e m.m_valBegin
      (m.m_map.dropWhile fun p => decide (p.1 < b))).isShouldFulfill = true
  · have hins2 : insertCount e (mapInsert b v
        ((m.m_map.takeWhile fun p => decide (p.1 < b))
          ++ (eraseLoop e m.m_valBegin
              (m.m_map.dropWhile fun p => decide (p.1 < b))).after)) = 1 := by
      rw [hmid, ← List.singleton_append, ← List.append_assoc]
      refine insertCount_middle e _ _ ?_ fun q hq => (hhead q hq).2 hf
      intro p hp
      rcases List.mem_append.mp hp with hp | hp
      · exact lt_trans (hpreb p hp) h
      · simp at hp
        rw [hp]
        exact h
    simp only [hf, if_true]
    rw [mapInsert_length, mapInsert_length, List.length_append, hins1, hins2]
    omega
  · simp only [hf, if_false, Bool.false_eq_true]
    rw [mapInsert_length, List.length_append, hins1]
    omega

/-- Witness for the amended C3 at a concrete call: `assign(3, 4, 'C')` on the
two-breakpoint state with base `'A'`. -/
theorem assign_wipe_scan_cost_witness :
    (3 : Int) < 4 ∧
      ((assignVComparisons (interval_map.mk 'A' [((2 : Int), 'B'), (5, 'A')])
            3 4 'C'
          + rangeErased 4
            ((interval_map.mk 'A' [((2 : Int), 'B'), (5, 'A')]).m_map.dropWhile
              fun p => decide (p.1 < 3))
        = (interval_map.mk 'A' [((2 : Int), 'B'), (5, 'A')]).m_map.length
          + assignInserted (interval_map.mk 'A' [((2 : Int), 'B'), (5, 'A')])
              3 4 'C') ∧
        1 ≤ assignInserted (interval_map.mk 'A' [((2 : Int), 'B'), (5, 'A')])
              3 4 'C' ∧
        assignInserted (interval_map.mk 'A' [((2 : Int), 'B'), (5, 'A')])
            3 4 'C' ≤ 2) :=
  ⟨by decide,
   assign_wipe_scan_cost (interval_map.mk 'A' [((2 : Int), 'B'), (5, 'A')])
     3 4 'C' (by decide)⟩

/-- What the erase loop keeps is a suffix of what it scanned. -/
theorem eraseLoop_after_suffix {K V : Type} [LinearOrder K] (e : K) :
    ∀ (l : List (K × V)) (lv : V), (eraseLoop e lv l).after <:+ l := by
  intro l
  induction l with
  | nil => intro lv; simp [eraseLoop]
  | cons p rest ih =>
      intro lv
      obtain ⟨k, v⟩ := p
      by_cases h : k < e
      · rw [show eraseLoop e lv ((k, v) :: rest) = eraseLoop e v rest from by
          simp [eraseLoop, h]]
        exact (ih v).trans (List.suffix_cons (k, v) rest)
      · rw [show eraseLoop e lv ((k, v) :: rest)
            = ⟨(k, v) :: rest, lv, !(keyEq k e)⟩ from by simp [eraseLoop, h]]

/-- When the erase loop consumes its whole input, `isShouldFulfill` stays set
and `lastValue` is the value of the last scanned entry (or the initial value
when there was none). -/
theorem eraseLoop_after_nil {K V : Type} [LinearOrder K] (e : K) :
    ∀ (l : List (K × V)) (lv : V), (eraseLoop e lv l).after = [] →
      (eraseLoop e lv l).isShouldFulfill = true ∧
        (eraseLoop e lv l).lastValue = ((l.getLast?.map Prod.snd).getD lv) := by
  intro l
  induction l with
  | nil => intro lv _; exact ⟨rfl, rfl⟩
  | cons p rest ih =>
      intro lv h
      obtain ⟨k, v⟩ := p
      by_cases hk : k < e
      · rw [show eraseLoop e lv ((k, v) :: rest) = eraseLoop e v rest from by
          simp [eraseLoop, hk]] at h ⊢
        obtain ⟨h1, h2⟩ := ih v h
        refine ⟨h1, ?_⟩
        rw [h2]
        cases rest with
        | nil => simp
        | cons a t =>
            rw [List.getLast?_cons_cons]
            obtain ⟨q, hq⟩ := Option.isSome_iff_exists.mp
              (List.getLast?_isSome.mpr (List.cons_ne_nil a t))
            rw [hq]
            rfl
      · rw [show eraseLoop e lv ((k, v) :: rest)
            = ⟨(k, v) :: rest, lv, !(keyEq k e)⟩ from by simp [eraseLoop, hk]] at h
        exact absurd h (List.cons_ne_nil _ _)

/-- A wiped-out result means every scanned value equaled the running value. -/
theorem wipeDuplicates_eq_nil {K V : Type} [DecidableEq V] :
    ∀ (l : List (K × V)) (prev : V), wipeDuplicates prev l = [] →
      ∀ x ∈ l, x.2 = prev := by
  intro l
  induction l with
  | nil => intro prev _ x hx; simp at hx
  | cons p rest ih =>
      intro prev hw x hx
      obtain ⟨k, v⟩ := p
      by_cases hv : v = prev
      · rw [show wipeDuplicates prev ((k, v) :: rest) = wipeDuplicates prev rest
            from by simp [wipeDuplicates, hv]] at hw
        rcases List.mem_cons.mp hx with rfl | hx'
        · exact hv
        · exact ih prev hw x hx'
      · rw [show wipeDuplicates prev ((k, v) :: rest)
            = (k, v) :: wipeDuplicates v rest from by simp [wipeDuplicates, hv]]
          at hw
        exact absurd hw (List.cons_ne_nil _ _)

/-- The duplicate-wipe pass preserves the value of the last entry: if every
possible last entry of the input carries value `c`, so does the last entry of
the output. -/
theorem wipeDuplicates_getLast {K V : Type} [DecidableEq V] (c : V) :
    ∀ (l : List (K × V)) (prev : V), (∀ p ∈ l.getLast?, p.2 = c) →
      ∀ p ∈ (wipeDuplicates prev l).getLast?, p.2 = c := by
  intro l
  induction l with
  | nil => intro prev _ p hp; simp [wipeDuplicates] at hp
  | cons q rest ih =>
      intro prev H p hp
      obtain ⟨k, v⟩ := q
      have H' : ∀ p ∈ rest.getLast?, p.2 = c := by
        intro p hp
        cases rest with
        | nil => simp at hp
        | cons a t => exact H p (by rw [List.getLast?_cons_cons]; exact hp)
      by_cases hv : v = prev
      · rw [show wipeDuplicates prev ((k, v) :: rest) = wipeDuplicates prev rest
            from by simp [wipeDuplicates, hv]] at hp
        exact ih prev H' p hp
      · rw [show wipeDuplicates prev ((k, v) :: rest)
            = (k, v) :: wipeDuplicates v rest from by simp [wipeDuplicates, hv]]
          at hp
        by_cases hw : wipeDuplicates v rest = []
        · rw [hw] at hp
          simp at hp
          rw [← hp]
          cases rest with
          | nil => exact H (k, v) rfl
          | cons a t =>
              obtain ⟨q, hq⟩ := Option.isSome_iff_exists.mp
                (List.getLast?_isSome.mpr (List.cons_ne_nil a t))
              have hqv : q.2 = v :=
                wipeDuplicates_eq_nil (a :: t) v hw q
                  (List.mem_of_mem_getLast? hq)
              have hqc : q.2 = c := H' q hq
              exact hqv.symm.trans hqc
        · cases hwe : wipeDuplicates v rest with
          | nil => exact absurd hwe hw
          | cons w0 wt =>
              rw [hwe, List.getLast?_cons_cons] at hp
              rw [← hwe] at hp
              exact ih v H' p hp

/-- `getLast?` ignores a cons onto a non-empty list. -/
theorem getLast?_cons_of_ne_nil {α : Type} (x : α) {l : List α} (h : l ≠ []) :
    (x :: l).getLast? = l.getLast? := by
  rw [← List.singleton_append]
  exact List.getLast?_append_of_ne_nil [x] h

/-- `getLast?` of a list equals `getLast?` of any non-empty suffix of it. -/
theorem isSuffix_getLast? {α : Type} {l₁ l₂ : List α} (h : l₁ <:+ l₂)
    (hne : l₁ ≠ []) : l₂.getLast? = l₁.getLast? := by
  obtain ⟨t, rfl⟩ := h
  exact List.getLast?_append_of_ne_nil t hne

/-- `getLast?` of a list equals `getLast?` of its non-empty `dropWhile`. -/
theorem dropWhile_getLast? {α : Type} (p : α → Bool) (l : List α)
    (h : l.dropWhile p ≠ []) : l.getLast? = (l.dropWhile p).getLast? := by
  conv_lhs => rw [← List.takeWhile_append_dropWhile p l]
  exact List.getLast?_append_of_ne_nil _ h

/-- Shape of the pre-wipe map in the fulfilling case: the untouched entries
below `keyBegin`, then `(keyBegin, val)`, then the closing breakpoint
`(keyEnd, lastValue)`, then the entries the erase loop kept. -/
theorem assignMid_shape_fulfill {K V : Type} [LinearOrder K]
    (m : interval_map K V) (b e : K) (v : V) (hbe : b < e)
    (hf : (eraseLoop e m.m_valBegin
        (m.m_map.dropWhile fun p => decide (p.1 < b))).isShouldFulfill = true) :
    assignMid m b e v
      = (m.m_map.takeWhile fun p => decide (p.1 < b))
        ++ (b, v)
        :: (e, (eraseLoop e m.m_valBegin
              (m.m_map.dropWhile fun p => decide (p.1 < b))).lastValue)
        :: (eraseLoop e m.m_valBegin
              (m.m_map.dropWhile fun p => decide (p.1 < b))).after := by
  have hpreb : ∀ p ∈ m.m_map.takeWhile fun p => decide (p.1 < b), p.1 < b :=
    fun p hp => by simpa using List.mem_takeWhile_imp hp
  have hhead := eraseLoop_after_head e
    (m.m_map.dropWhile fun p => decide (p.1 < b)) m.m_valBegin
  have hmid : mapInsert b v
      ((m.m_map.takeWhile fun p => decide (p.1 < b))
        ++ (eraseLoop e m.m_valBegin
            (m.m_map.dropWhile fun p => decide (p.1 < b))).after)
      = (m.m_map.takeWhile fun p => decide (p.1 < b))
        ++ (b, v) :: (eraseLoop e m.m_valBegin
            (m.m_map.dropWhile fun p => decide (p.1 < b))).after :=
    mapInsert_middle b v _ _ hpreb
      fun q hq => lt_of_lt_of_le hbe (hhead q hq).1
  simp only [assignMid, hf, if_true]
  rw [hmid, show (m.m_map.takeWhile fun p => decide (p.1 < b))
        ++ (b, v) :: (eraseLoop e m.m_valBegin
            (m.m_map.dropWhile fun p => decide (p.1 < b))).after
      = ((m.m_map.takeWhile fun p => decide (p.1 < b)) ++ [(b, v)])
        ++ (eraseLoop e m.m_valBegin
            (m.m_map.dropWhile fun p => decide (p.1 < b))).after from by simp]
  rw [mapInsert_middle e _ _ _
    (fun p hp => by
      rcases List.mem_append.mp hp with hp | hp
      · exact lt_trans (hpreb p hp) hbe
      · simp at hp
        rw [hp]
        exact hbe)
    (fun q hq => (hhead q hq).2 hf)]
  simp

/-- Shape of the pre-wipe map in the non-fulfilling case: no closing
breakpoint is inserted. -/
theorem assignMid_shape_noFulfill {K V : Type} [LinearOrder K]
    (m : interval_map K V) (b e : K) (v : V) (hbe : b < e)
    (hf : (eraseLoop e m.m_valBegin
        (m.m_map.dropWhile fun p => decide (p.1 < b))).isShouldFulfill
      = false) :
    assignMid m b e v
      = (m.m_map.takeWhile fun p => decide (p.1 < b))
        ++ (b, v)
        :: (eraseLoop e m.m_valBegin
              (m.m_map.dropWhile fun p => decide (p.1 < b))).after := by
  have hpreb : ∀ p ∈ m.m_map.takeWhile fun p => decide (p.1 < b), p.1 < b :=
    fun p hp => by simpa using List.mem_takeWhile_imp hp
  have hhead := eraseLoop_after_head e
    (m.m_map.dropWhile fun p => decide (p.1 < b)) m.m_valBegin
  simp only [assignMid, hf, Bool.false_eq_true, if_false]
  exact mapInsert_middle b v _ _ hpreb
    fun q hq => lt_of_lt_of_le hbe (hhead q hq).1

/-- Claim C10: in every reachable state, the last breakpoint (if any) carries
the base value `m_valBegin`; consequently `lookup` returns `m_valBegin` on
every key at or above all breakpoint keys, so the induced function returns to
the base value for large keys. -/
theorem reachable_last_value_base {K V : Type} [LinearOrder K] [DecidableEq V]
    (m : interval_map K V) (h : Reachable m) :
    (∀ p ∈ m.m_map.getLast?, p.2 = m.m_valBegin) ∧
      ∀ k : K, (∀ p ∈ m.m_map, p.1 ≤ k) → lookup m k = m.m_valBegin := by
  have main : ∀ p ∈ m.m_map.getLast?, p.2 = m.m_valBegin := by
    induction h with
    | init v => intro p hp; simp at hp
    | step b e v hm ih =>
        rename_i m'
        by_cases hbe : b < e
        · have hval : (assign m' b e v).m_valBegin = m'.m_valBegin := by
            simp [assign, hbe]
          have hmap : (assign m' b e v).m_map
              = wipeDuplicates m'.m_valBegin (assignMid m' b e v) := by
            simp [assign, hbe]
          rw [hval, hmap]
          apply wipeDuplicates_getLast
          by_cases hful : (eraseLoop e m'.m_valBegin
              (m'.m_map.dropWhile fun p => decide (p.1 < b))).isShouldFulfill
            = true
          · rw [assignMid_shape_fulfill m' b e v hbe hful]
            by_cases ha : (eraseLoop e m'.m_valBegin
                (m'.m_map.dropWhile fun p => decide (p.1 < b))).after = []
            · rw [ha]
              intro p hp
              rw [List.getLast?_append_of_ne_nil _ (by simp)] at hp
              simp at hp
              rw [← hp]
              obtain ⟨-, hlast⟩ := eraseLoop_after_nil e
                (m'.m_map.dropWhile fun p => decide (p.1 < b)) m'.m_valBegin ha
              rw [hlast]
              cases hsuf : (m'.m_map.dropWhile fun p => decide (p.1 < b)).getLast? with
              | none => simp
              | some q =>
                  have hsufne : (m'.m_map.dropWhile fun p => decide (p.1 < b)) ≠ [] := by
                    intro hn
                    rw [hn] at hsuf
                    simp at hsuf
                  have hm : m'.m_map.getLast?
                      = (m'.m_map.dropWhile fun p => decide (p.1 < b)).getLast? :=
                    dropWhile_getLast? _ _ hsufne
                  have hq : q.2 = m'.m_valBegin := ih q (by rw [hm, hsuf]; rfl)
                  simp [hsuf, hq]
            · intro p hp
              rw [List.getLast?_append_of_ne_nil _ (by simp),
                getLast?_cons_of_ne_nil _ (by simp),
                getLast?_cons_of_ne_nil _ ha] at hp
              have hsufne : (m'.m_map.dropWhile fun p => decide (p.1 < b)) ≠ [] := by
                intro hn
                rw [hn] at ha
                exact ha rfl
              have hchain : m'.m_map.getLast?
                  = (eraseLoop e m'.m_valBegin
                      (m'.m_map.dropWhile fun p => decide (p.1 < b))).after.getLast? :=
                (dropWhile_getLast? _ _ hsufne).trans
                  (isSuffix_getLast?
                    (eraseLoop_after_suffix e _ m'.m_valBegin) ha)
              exact ih p (by rw [hchain]; exact hp)
          · have hful' : (eraseLoop e m'.m_valBegin
                (m'.m_map.dropWhile fun p => decide (p.1 < b))).isShouldFulfill
              = false := by
              cases hx : (eraseLoop e m'.m_valBegin
                  (m'.m_map.dropWhile fun p => decide (p.1 < b))).isShouldFulfill
              · rfl
              · exact absurd hx hful
            have ha : (eraseLoop e m'.m_valBegin
                (m'.m_map.dropWhile fun p => decide (p.1 < b))).after ≠ [] := by
              intro hn
              have := (eraseLoop_after_nil e
                (m'.m_map.dropWhile fun p => decide (p.1 < b)) m'.m_valBegin hn).1
              rw [hful'] at this
              exact Bool.false_ne_true this
            rw [assignMid_shape_noFulfill m' b e v hbe hful']
            intro p hp
            rw [List.getLast?_append_of_ne_nil _ (by simp),
              getLast?_cons_of_ne_nil _ ha] at hp
            have hsufne : (m'.m_map.dropWhile fun p => decide (p.1 < b)) ≠ [] := by
              intro hn
              rw [hn] at ha
              exact ha rfl
            have hchain : m'.m_map.getLast?
                = (eraseLoop e m'.m_valBegin
                    (m'.m_map.dropWhile fun p => decide (p.1 < b))).after.getLast? :=
              (dropWhile_getLast? _ _ hsufne).trans
                (isSuffix_getLast?
                  (eraseLoop_after_suffix e _ m'.m_valBegin) ha)
            exact ih p (by rw [hchain]; exact hp)
        · rw [assign_of_not_lt m' b e v hbe]
          exact ih
  refine ⟨main, fun k hk => ?_⟩
  have hall : (m.m_map.takeWhile fun p => !(decide (k < p.1))) = m.m_map :=
    List.takeWhile_eq_self_iff.mpr fun p hp => by
      simpa using not_lt.mpr (hk p hp)
  unfold lookup
  rw [hall]
  cases hg : m.m_map.getLast? with
  | none => rfl
  | some p => exact main p hg

/-- Witness for C10 at a concrete reachable state with a non-empty map. -/
theorem reachable_last_value_base_witness :
    (∀ p ∈ (assign (interval_map.mk 'A' ([] : List (Int × Char)))
        2 5 'B').m_map.getLast?,
      p.2 = (assign (interval_map.mk 'A' ([] : List (Int × Char)))
        2 5 'B').m_valBegin) ∧
      ∀ k : Int,
        (∀ p ∈ (assign (interval_map.mk 'A' ([] : List (Int × Char)))
            2 5 'B').m_map, p.1 ≤ k) →
          lookup (assign (interval_map.mk 'A' ([] : List (Int × Char)))
              2 5 'B') k
            = (assign (interval_map.mk 'A' ([] : List (Int × Char)))
                2 5 'B').m_valBegin :=
  reachable_last_value_base _ (Reachable.step 2 5 'B' (Reachable.init 'A'))
